import Mathlib

/-!
Verification development for `src/lib/pbak/albums.py` (pbak albums:
sync Lightroom Classic collections to Immich albums).

The Python source is shallowly embedded below: pure helpers become Lean
functions on `String`/`List Char`, the smart-collection rule parser and
compiler are modelled faithfully to the regex semantics actually used,
exceptions become `Except Unit`, and the phases of `run` that the claims
concern (promotion-map construction, album dedup, duplicate cleanup,
stack planning, dry-run request gating) are modelled as explicit pure
functions of their inputs.  Python `str.lower` and the regex character
classes are modelled over ASCII, which covers every character the
program's own patterns mention.
-/

/- ── ASCII character helpers (Python str methods / re character classes) ── -/

def lowerChar (c : Char) : Char :=
  if 'A' ≤ c ∧ c ≤ 'Z' then Char.ofNat (c.toNat + 32) else c

def lowerStr (l : List Char) : List Char := l.map lowerChar

def isAsciiDigit (c : Char) : Bool := decide ('0' ≤ c ∧ c ≤ '9')

def isPyWs (c : Char) : Bool :=
  decide (c = ' ' ∨ c = '\t' ∨ c = '\n' ∨ c = '\r' ∨ c = '\x0b' ∨ c = '\x0c')

def isWordChar (c : Char) : Bool :=
  decide (('a' ≤ c ∧ c ≤ 'z') ∨ ('A' ≤ c ∧ c ≤ 'Z') ∨ ('0' ≤ c ∧ c ≤ '9') ∨ c = '_')

/- ── pathlib.Path(filename).stem ─────────────────────────────────────────
`Path(x).stem`: the last path component (trailing slashes dropped,
`.` and `..` have empty name), with its final suffix removed when the
last dot sits strictly inside the name (`0 < i < len-1`). -/

def lastComponent (l : List Char) : List Char :=
  let noTrail := ((l.reverse.dropWhile (fun c => c = '/')).reverse)
  let comp := (noTrail.reverse.takeWhile (fun c => c ≠ '/')).reverse
  if comp = ['.'] ∨ comp = ['.', '.'] then [] else comp

def stripLastSuffix (name : List Char) : List Char :=
  let r := name.reverse
  let afterDot := r.takeWhile (fun c => c ≠ '.')
  if name.contains '.' ∧ afterDot ≠ [] ∧ r.drop (afterDot.length + 1) ≠ [] then
    (r.drop (afterDot.length + 1)).reverse
  else name

def pathStem (l : List Char) : List Char := stripLastSuffix (lastComponent l)

/- ── _DXO_SUFFIX = re.compile(r'-DxO_[^-]*', re.IGNORECASE); .sub("", s) ──
`re.sub` removes every non-overlapping match, scanning left to right;
the greedy `[^-]*` always extends to the next dash or the end of the
string (a shorter run would have to match `[^-]` against nothing). -/

theorem dropWhile_length_le (p : Char → Bool) (l : List Char) :
    (l.dropWhile p).length ≤ l.length := by
  induction l with
  | nil => simp [List.dropWhile]
  | cons c cs ih =>
    simp only [List.dropWhile]
    by_cases h : p c
    · simp [h]; omega
    · simp [h]

def isDxoTag (l : List Char) : Bool :=
  match l with
  | c1 :: c2 :: c3 :: c4 :: _ =>
      decide (lowerChar c1 = 'd' ∧ lowerChar c2 = 'x' ∧ lowerChar c3 = 'o' ∧ c4 = '_')
  | _ => false

def dxoSubGo (fuel : Nat) (l : List Char) : List Char :=
  match fuel, l with
  | _, [] => []
  | 0, l => l
  | fuel + 1, c :: cs =>
    if c = '-' ∧ isDxoTag cs then
      dxoSubGo fuel ((cs.drop 4).dropWhile (fun d => d ≠ '-'))
    else c :: dxoSubGo fuel cs

/-- `_DXO_SUFFIX.sub("", l)`.  Every scan step consumes at least one
character, so `l.length` fuel always suffices (the `0, l => l` arm is
unreachable); the fuel only makes the recursion structural. -/
def dxoSub (l : List Char) : List Char := dxoSubGo l.length l

/- ── _VIRTUAL_COPY = re.compile(r'-\d+$'); .sub("", s) ───────────────────
`-\d+$` can only match at the last dash of the string (an earlier dash
would need a dash inside `\d+`), so at most one match is removed. -/

def vcopySub (l : List Char) : List Char :=
  let r := l.reverse
  let ds := r.takeWhile isAsciiDigit
  if ds ≠ [] ∧ (r.drop ds.length).head? = some '-' then
    (r.drop (ds.length + 1)).reverse
  else l

/- ── normalize_stem / format_priority / the inline extension split ─────── -/

def normalize_stem (filename : String) : String :=
  String.mk (lowerStr (vcopySub (dxoSub (pathStem filename.data))))

def FORMAT_PRIORITY (e : String) : Option Nat :=
  match e with
  | "tif" | "tiff" => some 1
  | "dng" => some 2
  | "arw" | "cr3" | "cr2" | "nef" | "raf" => some 3
  | "jpg" | "jpeg" => some 4
  | "heic" => some 5
  | _ => none

def format_priority (ext : String) : Nat :=
  (FORMAT_PRIORITY (String.mk (lowerStr ext.data))).getD 9

/-- `fn.rsplit(".", 1)[-1] if "." in fn else ""` (run, lines 387 and 586). -/
def extAfterLastDot (fn : String) : String :=
  if fn.data.contains '.' then
    String.mk ((fn.data.reverse.takeWhile (fun c => c ≠ '.')).reverse)
  else ""

/- ── Asset records and the promotion map (run, lines 379‑400) ─────────────
`build_asset_index` yields `{originalFileName: [asset_dicts]}` for the
invoking user's assets; both promotion-map loops traverse it in the same
(dict insertion) order, so the population is modelled as the flat list
of assets in that traversal order.  The per-stem dict entry
`stem_best[stem]` only ever depends on assets of that stem, so it is
modelled as a per-stem fold over the whole list. -/

structure AssetRec where
  id : String
  originalFileName : String
deriving DecidableEq, Repr

def prioOf (a : AssetRec) : Nat := format_priority (extAfterLastDot a.originalFileName)

def stemOf (a : AssetRec) : String := normalize_stem a.originalFileName

/-- One step of the `stem_best` update: first occurrence sets the entry,
a strictly smaller priority replaces it (run, lines 389‑392). -/
def stemBestGo (s : String) (l : List AssetRec) (acc : Option (String × Nat)) :
    Option (String × Nat) :=
  match l with
  | [] => acc
  | a :: rest =>
    if stemOf a = s then
      match acc with
      | none => stemBestGo s rest (some (a.id, prioOf a))
      | some bp =>
        if prioOf a < bp.2 then stemBestGo s rest (some (a.id, prioOf a))
        else stemBestGo s rest acc
    else stemBestGo s rest acc

def stem_best (assets : List AssetRec) (s : String) : Option (String × Nat) :=
  stemBestGo s assets none

/-- Second loop (run, lines 395‑400): `promote[a.id] = best_id` whenever the
stem's best id differs from the asset's own id. -/
def promoteList (assets : List AssetRec) : List (String × String) :=
  assets.filterMap (fun a =>
    match stem_best assets (stemOf a) with
    | none => none
    | some bp => if bp.1 ≠ a.id then some (a.id, bp.1) else none)

/- ── list(dict.fromkeys(xs)) (run, line 462) ─────────────────────────────
Python dicts preserve insertion order, so `dict.fromkeys` keeps the
first occurrence of each key, in order. -/

def dedupFirstGo (acc : List String) (l : List String) : List String :=
  match l with
  | [] => acc
  | x :: xs => if x ∈ acc then dedupFirstGo acc xs else dedupFirstGo (acc ++ [x]) xs

def dedupFirst (l : List String) : List String := dedupFirstGo [] l

/-- Reference rendering of "keep each element's first occurrence, in input
order", used to state what `dedupFirst` computes. -/
def firstOccurrences (l : List String) : List String :=
  match l with
  | [] => []
  | x :: xs => x :: firstOccurrences (xs.filter (fun y => y ≠ x))
termination_by l.length
decreasing_by
  have := List.length_filter_le (fun y => decide (y ≠ x)) xs
  simp only [List.length_cons]; omega

/- ── Matched-id pipeline of the album sync loop (run, lines 444‑462) ─────
For each catalog file: look its filename up in the asset index, take the
first asset's id (`assets[0]["id"]`), promote it through the map, then
deduplicate preserving first occurrence. -/

structure LrFile where
  filename : String
  pick : String
  rating : String
deriving Repr

def matchedIdsRaw (files : List LrFile) (assetIndex : String → List AssetRec)
    (promote : String → Option String) : List String :=
  files.filterMap (fun f =>
    match assetIndex f.filename with
    | [] => none
    | a :: _ => some ((promote a.id).getD a.id))

def submittedIds (files : List LrFile) (assetIndex : String → List AssetRec)
    (promote : String → Option String) : List String :=
  dedupFirst (matchedIdsRaw files assetIndex promote)

/- ── Duplicate-cleanup predicate (run, lines 509‑514) ────────────────────
`demoted = [cid for cid in current_ids if cid not in matched_set and
cid in promote and promote[cid] in current_ids]`.  `current_ids` is a
Python set; it is modelled by a list standing for its elements (only
membership matters to the claims). -/

def demoted (current : List String) (matched : List String)
    (promote : String → Option String) : List String :=
  current.filter (fun cid =>
    !(matched.contains cid) &&
    (match promote cid with
     | some t => current.contains t
     | none => false))

/- ── Stack planning (run, lines 608‑647) ─────────────────────────────────
Per multi-member stem group (tuples `(asset_id, ext, originalFileName)`):
collect the distinct existing stack ids of the members, the unstacked
members, then either skip, or sort by format priority (Python's `sorted`
is stable; modelled by a stable insertion sort) and create/replace.
`existing_stack_ids` is a Python set; its iteration order (used only for
the deletions) is modelled by first-occurrence order. -/

abbrev Member := String × String × String

def memberPrio (m : Member) : Nat := format_priority m.2.1

def insertByPrio (x : Member) (l : List Member) : List Member :=
  match l with
  | [] => [x]
  | y :: ys => if memberPrio x ≤ memberPrio y then x :: y :: ys else y :: insertByPrio x ys

def sortByPrio (l : List Member) : List Member :=
  match l with
  | [] => []
  | x :: xs => insertByPrio x (sortByPrio xs)

inductive StackOp where
  | skip : StackOp
  | create (primary : String) (others : List String) : StackOp
  | replace (oldStackIds : List String) (primary : String) (others : List String) : StackOp
deriving DecidableEq, Repr

/-- The plan for one stem group with ≥ 2 members (the caller skips smaller
groups at run line 609); `a2s` is the `asset_to_stack` lookup. -/
def planGroup (a2s : String → Option String) (group : List Member) : StackOp :=
  let existing := dedupFirst (group.filterMap (fun m => a2s m.1))
  let unstacked := (group.map (fun m => m.1)).filter (fun aid => (a2s aid).isNone)
  if existing.length = 1 ∧ unstacked = [] then .skip
  else
    let sortedGroup := sortByPrio group
    let allIds := sortedGroup.map (fun m => m.1)
    let primary := allIds.headD ""
    let others := allIds.filter (fun aid => aid ≠ primary)
    if existing = [] then .create primary others
    else .replace existing primary others

/- ── Dry-run gating (ImmichAPI._request, lines 55‑58; run, lines 592‑602) ─
`_request` short-circuits (no network, returns None) exactly when the
method is a non-GET, the call is not marked readonly, and dry-run is on.
The stacking phase only issues the `GET /api/stacks` read when dry-run
is off (run line 592: `if not dry_run:`). -/

structure ApiRequest where
  method : String
  endpoint : String
  readonly : Bool
deriving DecidableEq, Repr

/-- Whether `_request` actually performs the network call. -/
def request_sends (dryRun : Bool) (r : ApiRequest) : Bool :=
  !(r.method ≠ "GET" && !r.readonly && dryRun)

/-- The remote reads issued by the stacking phase before planning. -/
def stackingPhaseReads (dryRun : Bool) : List ApiRequest :=
  if dryRun then [] else [⟨"GET", "/api/stacks", false⟩]

/- ── Smart-collection rules (LrCCatalog, lines 234‑313) ──────────────────
A parsed rule block: the five known keys, each optional
(`_parse_smart_rules` only stores a key when one of its two patterns
matched; `_rule_to_sql` reads them with `rule.get(k, "")`). -/

structure Rule where
  criteria : Option String
  operation : Option String
  value : Option String
  value2 : Option String
  value_units : Option String
deriving DecidableEq, Repr

/- ── int(float(val)) (the touchTime branch, line 307) ────────────────────
Python's `float()` accepts optional surrounding whitespace, an optional
sign, a digit string with an optional point and an optional exponent;
anything else raises ValueError (and `int()` of an inf/nan parse also
raises, so rejecting those is observationally the same).  `int()`
truncates toward zero. -/

def digitsToNat (l : List Char) : Nat :=
  l.foldl (fun n c => n * 10 + (c.toNat - '0'.toNat)) 0

def parseExp (r : List Char) : Bool × Int × List Char :=
  let sr := match r with
            | '-' :: t => (true, t)
            | '+' :: t => (false, t)
            | _ => (false, r)
  let ds := sr.2.takeWhile isAsciiDigit
  if ds = [] then (false, 0, sr.2)
  else
    let v : Int := (digitsToNat ds : Int)
    (true, if sr.1 then -v else v, sr.2.dropWhile isAsciiDigit)

def pyFloatToInt (s : String) : Option Int :=
  let l0 := s.data.dropWhile isPyWs
  let sl := match l0 with
            | '-' :: r => (true, r)
            | '+' :: r => (false, r)
            | _ => (false, l0)
  let ip := sl.2.takeWhile isAsciiDigit
  let l2 := sl.2.dropWhile isAsciiDigit
  let fl := match l2 with
            | '.' :: r => (r.takeWhile isAsciiDigit, r.dropWhile isAsciiDigit)
            | _ => ([], l2)
  if ip = [] ∧ fl.1 = [] then none
  else
    let ex := match fl.2 with
              | 'e' :: r => parseExp r
              | 'E' :: r => parseExp r
              | _ => (true, 0, fl.2)
    if ex.1 ∧ ex.2.2.dropWhile isPyWs = [] then
      let mant := digitsToNat (ip ++ fl.1)
      let fracLen : Int := (fl.1.length : Int)
      let aval : Nat :=
        if fracLen ≤ ex.2.1 then mant * 10 ^ ((ex.2.1 - fracLen).toNat)
        else mant / 10 ^ ((fracLen - ex.2.1).toNat)
      some (if sl.1 then -(aval : Int) else (aval : Int))
    else none

/- ── LrCCatalog._rule_to_sql (lines 261‑313) ─────────────────────────────
The one fallible branch is touchTime, whose `int(float(val))` raises on
a non-numeric value; everything else only interpolates strings.  `now`
stands for `int(time.time())`. -/

def rule_to_sql (now : Int) (rule : Rule) : Except Unit (Option String) :=
  let criteria := rule.criteria.getD ""
  let op := rule.operation.getD ""
  let val := rule.value.getD ""
  let units := rule.value_units.getD ""
  if criteria = "captureTime" then
    if op = ">" then .ok (some ("i.captureTime > '" ++ val ++ "'"))
    else if op = "<" then .ok (some ("i.captureTime < '" ++ val ++ "'"))
    else if op = "==" then
      .ok (some ("i.captureTime >= '" ++ val ++ "' AND i.captureTime < date('" ++ val ++ "', '+1 day')"))
    else if op = "inLast" then
      .ok (some ("i.captureTime > datetime('now', '-" ++ val ++ " " ++ units ++ "')"))
    else .ok none
  else if criteria = "pick" then
    .ok (some ("i.pick = " ++ val))
  else if criteria = "rating" then
    if op = "==" then .ok (some ("i.rating = " ++ val))
    else if op = ">=" then .ok (some ("i.rating >= " ++ val))
    else .ok none
  else if criteria = "fileFormat" then
    if op = "==" then .ok (some ("i.fileFormat = '" ++ val ++ "'"))
    else if op = "!=" then .ok (some ("(i.fileFormat IS NULL OR i.fileFormat != '" ++ val ++ "')"))
    else .ok none
  else if criteria = "keywords" then
    let lcVal := String.mk (lowerStr val.data)
    if op = "any" then
      .ok (some ("EXISTS (SELECT 1 FROM AgLibraryKeywordImage ki JOIN AgLibraryKeyword k ON k.id_local = ki.tag WHERE ki.image = i.id_local AND k.lc_name = '" ++ lcVal ++ "')"))
    else if op = "empty" then
      .ok (some "NOT EXISTS (SELECT 1 FROM AgLibraryKeywordImage ki WHERE ki.image = i.id_local)")
    else .ok none
  else if criteria = "focalLength" then
    if op = "<" then .ok (some ("exif.focalLength < " ++ val))
    else if op = ">" then .ok (some ("exif.focalLength > " ++ val))
    else .ok none
  else if criteria = "labelColor" then
    let name :=
      if val = "1" then "Red" else if val = "2" then "Yellow" else if val = "3" then "Green"
      else if val = "4" then "Blue" else if val = "5" then "Purple" else val
    .ok (some ("i.colorLabels = '" ++ name ++ "'"))
  else if criteria = "touchTime" then
    let cocoaNow := now - 978307200
    let multiplier : Int :=
      if units = "days" then 86400 else if units = "months" then 2592000 else 86400
    match pyFloatToInt val with
    | none => .error ()
    | some n => .ok (some ("i.touchTime > " ++ toString (cocoaNow - n * multiplier)))
  else .ok none

/- ── re.finditer(r'\{([^{}]+)\}', content) (line 244) ────────────────────
A match needs `{`, a nonempty run of non-brace characters (the greedy
run must reach the closing brace: a shorter run would put a non-brace
character where `}` is required), then `}`.  `finditer` tries each start
position left to right and resumes after a match's end. -/

def isNotBrace (c : Char) : Bool := decide (c ≠ '{' ∧ c ≠ '}')

def scanBlocksGo (fuel : Nat) (l : List Char) : List (List Char) :=
  match fuel, l with
  | _, [] => []
  | 0, _ => []
  | fuel + 1, c :: rest =>
    if c = '{' then
      let body := rest.takeWhile isNotBrace
      let rem := rest.dropWhile isNotBrace
      if rem.head? = some '}' ∧ body ≠ [] then body :: scanBlocksGo fuel rem.tail
      else scanBlocksGo fuel rest
    else scanBlocksGo fuel rest

/-- All matches of `\{([^{}]+)\}`.  Every scan step consumes at least one
character, so `l.length` fuel always suffices (the `0, _` arm is
unreachable); the fuel only makes the recursion structural. -/
def scanBlocks (l : List Char) : List (List Char) := scanBlocksGo l.length l

/- ── re.search of the per-key field patterns (lines 249‑255) ─────────────
`key\s*=\s*"([^"]*)"` and `key\s*=\s*(-?[\d.]+)` (no word boundary
around the key).  `re.search` tries each start position left to right;
the greedy `\s*` runs and the greedy captures are exact because the
character following a shorter run could never match the required
delimiter. -/

def afterKeyEq (key : List Char) (l : List Char) : Option (List Char) :=
  if l.take key.length = key then
    let r1 := (l.drop key.length).dropWhile isPyWs
    match r1 with
    | '=' :: r2 => some (r2.dropWhile isPyWs)
    | _ => none
  else none

def quotedAt (r : List Char) : Option (List Char) :=
  match r with
  | '"' :: rest =>
    let v := rest.takeWhile (fun c => c ≠ '"')
    if (rest.dropWhile (fun c => c ≠ '"')).head? = some '"' then some v else none
  | _ => none

def numericAt (r : List Char) : Option (List Char) :=
  let sr := match r with
            | '-' :: t => (['-'], t)
            | _ => (([] : List Char), r)
  let ds := sr.2.takeWhile (fun c => isAsciiDigit c || c = '.')
  if ds = [] then none else some (sr.1 ++ ds)

def searchQuotedField (key : List Char) (l : List Char) : Option (List Char) :=
  match l with
  | [] => none
  | _ :: rest =>
    match afterKeyEq key l with
    | some r =>
      match quotedAt r with
      | some v => some v
      | none => searchQuotedField key rest
    | none => searchQuotedField key rest

def searchNumericField (key : List Char) (l : List Char) : Option (List Char) :=
  match l with
  | [] => none
  | _ :: rest =>
    match afterKeyEq key l with
    | some r =>
      match numericAt r with
      | some v => some v
      | none => searchNumericField key rest
    | none => searchNumericField key rest

/-- String value first, then numeric (lines 249‑255). -/
def getField (key : String) (text : List Char) : Option String :=
  match searchQuotedField key.data text with
  | some v => some (String.mk v)
  | none =>
    match searchNumericField key.data text with
    | some v => some (String.mk v)
    | none => none

/- ── re.search(r'combine\s*=\s*"(\w+)"', content) (line 239) ───────────── -/

def combineAt (r : List Char) : Option (List Char) :=
  match r with
  | '"' :: rest =>
    let w := rest.takeWhile isWordChar
    if w ≠ [] ∧ (rest.drop w.length).head? = some '"' then some w else none
  | _ => none

def searchCombine (l : List Char) : Option (List Char) :=
  match l with
  | [] => none
  | _ :: rest =>
    match afterKeyEq "combine".data l with
    | some r =>
      match combineAt r with
      | some v => some v
      | none => searchCombine rest
    | none => searchCombine rest

/- ── LrCCatalog._parse_smart_rules (lines 234‑259) ─────────────────────── -/

def parseBlock (body : List Char) : Rule :=
  ⟨getField "criteria" body, getField "operation" body, getField "value" body,
   getField "value2" body, getField "value_units" body⟩

def parse_smart_rules (content : String) : List Rule × String :=
  let combine := match searchCombine content.data with
                 | some w => String.mk w
                 | none => "intersect"
  let rules := (scanBlocks content.data).filterMap (fun b =>
    let r := parseBlock b
    if r.criteria.isSome then some r else none)
  (rules, combine)

/- ── LrCCatalog.smart_collection_files (lines 181‑223) ───────────────────
The clause loop keeps the non-None clauses in order; a touchTime
exception propagates out of the method (the caller catches it per
collection).  `dbQuery` stands for the sqlite execution of the built
query; the SQL text is modelled with its whitespace flattened. -/

def collectClauses (now : Int) (rules : List Rule) : Except Unit (List String) :=
  match rules with
  | [] => .ok []
  | r :: rs =>
    match rule_to_sql now r with
    | .error e => .error e
    | .ok none => collectClauses now rs
    | .ok (some c) =>
      match collectClauses now rs with
      | .error e => .error e
      | .ok cs => .ok (c :: cs)

def buildSmartQuery (clauses : List String) (combine : String) (needsExif : Bool) : String :=
  let joiner := if combine = "intersect" then " AND " else " OR "
  let whereStr := String.intercalate joiner (clauses.map (fun c => "(" ++ c ++ ")"))
  let joins :=
    if needsExif then "LEFT JOIN AgHarvestedExifMetadata exif ON exif.image = i.id_local"
    else ""
  "SELECT f.originalFilename AS filename, COALESCE(i.pick, 0) AS pick, COALESCE(i.rating, 0) AS rating, i.fileFormat AS fileformat FROM Adobe_images i JOIN AgLibraryFile f ON f.id_local = i.rootFile "
    ++ joins ++ " WHERE " ++ whereStr

def smart_collection_files (now : Int) (content : String)
    (dbQuery : String → List LrFile) : Except Unit (List LrFile) :=
  let rc := parse_smart_rules content
  if rc.1 = [] then .ok []
  else
    match collectClauses now rc.1 with
    | .error e => .error e
    | .ok whereClauses =>
      let needsExif := rc.1.any (fun r => r.criteria = some "focalLength")
      if whereClauses = [] then .ok []
      else .ok (dbQuery (buildSmartQuery whereClauses rc.2 needsExif))

/- ════════════════════════════════════════════════════════════════════════
   Theorems
   ════════════════════════════════════════════════════════════════════════ -/

/-- Claim C1: the spec requires that compiling rules to predicates never
raises, for every rule dictionary including rules whose value is absent,
empty or a non-numeric string, and in particular that a touchTime rule
with any string value compiles without error.  The code violates this:
the touchTime branch runs `int(float(val))` unguarded, so a non-numeric
value raises ValueError.  This theorem evaluates the embedded
`_rule_to_sql` at the failing input (a touchTime rule whose value is the
string "recent"): it yields the error outcome for every clock value. -/
theorem c1_touchtime_nonnumeric_raises (now : Int) :
    rule_to_sql now ⟨some "touchTime", none, some "recent", none, none⟩ = .error () := rfl

/-- Claim C8: rule text without a recognizable bracket block parses to an
empty RuleSet, compiling an empty RuleSet yields zero predicates, and a
smart collection with no compiled predicates resolves to an empty member
list (no query is executed), not a fetch-all. -/
theorem c8_no_blocks_empty_result (now : Int) (content : String)
    (h : scanBlocks content.data = []) :
    (parse_smart_rules content).1 = [] ∧
    collectClauses now [] = .ok [] ∧
    ∀ dbQuery, smart_collection_files now content dbQuery = .ok [] := by
  have hr : (parse_smart_rules content).1 = [] := by
    unfold parse_smart_rules
    simp [h]
  refine ⟨hr, rfl, ?_⟩
  intro dbQuery
  unfold smart_collection_files
  simp [hr]

theorem c8_no_blocks_empty_result_witness :
    (parse_smart_rules "s = junk with no real blocks").1 = [] ∧
    collectClauses 0 [] = .ok [] ∧
    ∀ dbQuery, smart_collection_files 0 "s = junk with no real blocks" dbQuery = .ok [] :=
  c8_no_blocks_empty_result 0 "s = junk with no real blocks" (by decide)

/-- Claim C5: the duplicate-cleanup predicate queues an album member for
removal iff it is not a matched canonical id, it has a promotion-map
entry, and its promotion target is present among the current album
members (so a member whose target is absent is never queued). -/
theorem c5_demoted_iff (current matched : List String)
    (promote : String → Option String) (cid : String) :
    cid ∈ demoted current matched promote ↔
      cid ∈ current ∧ cid ∉ matched ∧ ∃ t, promote cid = some t ∧ t ∈ current := by
  unfold demoted
  rw [List.mem_filter]
  cases hpr : promote cid with
  | none => simp [hpr, List.elem_iff]
  | some t => simp [hpr, List.elem_iff]

/-- Claim C4 counterexample: the claim says every remote read a non-dry
run would perform, including the stack-list read, still occurs in
dry-run mode.  But `run` guards the stack-list fetch with
`if not dry_run:` (line 592): the read is issued when dry-run is off and
not issued when dry-run is on. -/
theorem c4_dry_run_skips_stack_read :
    (ApiRequest.mk "GET" "/api/stacks" false ∈ stackingPhaseReads false) ∧
    (ApiRequest.mk "GET" "/api/stacks" false ∉ stackingPhaseReads true) := by decide

/-- Claim C4 (amended): in dry-run mode no remote mutation is issued
(`_request` suppresses every non-GET, non-readonly call), and GET or
readonly requests made through `_request` still go through in either
mode — but the stacking phase issues its stack-list read only when
dry-run is off, so dry-run stacking decisions do not consult existing
stacks. -/
theorem c4_dry_run_amended (r : ApiRequest) (dryRun : Bool) (m : String)
    (hm : r.method ≠ "GET") (hro : r.readonly = false) :
    request_sends true r = false ∧
    (∀ e ro, request_sends dryRun ⟨"GET", e, ro⟩ = true) ∧
    (∀ e, request_sends dryRun ⟨m, e, true⟩ = true) ∧
    stackingPhaseReads true = [] ∧
    stackingPhaseReads false = [⟨"GET", "/api/stacks", false⟩] := by
  refine ⟨?_, ?_, ?_, rfl, rfl⟩
  · simp [request_sends, hro, hm]
  · intro e ro
    simp [request_sends]
  · intro e
    simp [request_sends]

theorem c4_dry_run_amended_witness :
    request_sends true ⟨"PUT", "/api/albums/a1/assets", false⟩ = false ∧
    (∀ e ro, request_sends false ⟨"GET", e, ro⟩ = true) ∧
    (∀ e, request_sends false ⟨"POST", e, true⟩ = true) ∧
    stackingPhaseReads true = [] ∧
    stackingPhaseReads false = [⟨"GET", "/api/stacks", false⟩] :=
  c4_dry_run_amended ⟨"PUT", "/api/albums/a1/assets", false⟩ false "POST"
    (by decide) rfl

/- ── Deduplication lemmas (for claims C10 and C7) ──────────────────────── -/

theorem fo_mem_aux (n : Nat) :
    ∀ (l : List String), l.length ≤ n → ∀ y, (y ∈ firstOccurrences l ↔ y ∈ l) := by
  induction n with
  | zero =>
    intro l hl y
    have : l = [] := List.eq_nil_of_length_eq_zero (Nat.le_zero.mp hl)
    subst this; simp [firstOccurrences]
  | succ n ih =>
    intro l hl y
    cases l with
    | nil => simp [firstOccurrences]
    | cons x xs =>
      simp only [firstOccurrences]
      by_cases hyx : y = x
      · simp [hyx]
      · have hlen : (xs.filter (fun z => decide (z ≠ x))).length ≤ n := by
          have := List.length_filter_le (fun z => decide (z ≠ x)) xs
          simp only [List.length_cons] at hl; omega
        have ihx := ih _ hlen y
        simp only [ne_eq, decide_not] at ihx
        rw [List.mem_cons]
        simp [hyx, ihx, List.mem_filter]

theorem fo_mem_iff (l : List String) (y : String) :
    y ∈ firstOccurrences l ↔ y ∈ l :=
  fo_mem_aux l.length l le_rfl y

theorem fo_nodup_aux (n : Nat) :
    ∀ (l : List String), l.length ≤ n → (firstOccurrences l).Nodup := by
  induction n with
  | zero =>
    intro l hl
    have : l = [] := List.eq_nil_of_length_eq_zero (Nat.le_zero.mp hl)
    subst this; simp [firstOccurrences]
  | succ n ih =>
    intro l hl
    cases l with
    | nil => simp [firstOccurrences]
    | cons x xs =>
      simp only [firstOccurrences]
      have hlen : (xs.filter (fun z => decide (z ≠ x))).length ≤ n := by
        have := List.length_filter_le (fun z => decide (z ≠ x)) xs
        simp only [List.length_cons] at hl; omega
      refine List.nodup_cons.mpr ⟨?_, ih _ hlen⟩
      intro hx
      have := (fo_mem_iff _ x).mp hx
      simp [List.mem_filter] at this

theorem fo_nodup (l : List String) : (firstOccurrences l).Nodup :=
  fo_nodup_aux l.length l le_rfl

theorem dedupFirstGo_eq (l : List String) :
    ∀ acc, dedupFirstGo acc l = acc ++ firstOccurrences (l.filter (fun y => !(acc.contains y))) := by
  induction l with
  | nil => intro acc; simp [dedupFirstGo, firstOccurrences]
  | cons x xs ih =>
    intro acc
    by_cases hx : x ∈ acc
    · have hc : (!(acc.contains x)) = false := by simp [List.elem_iff, hx]
      simp only [dedupFirstGo, if_pos hx, ih acc, List.filter_cons, hc]
      simp
    · have hc : (!(acc.contains x)) = true := by simp [List.elem_iff, hx]
      simp only [dedupFirstGo, if_neg hx, ih (acc ++ [x]), List.filter_cons, hc, if_true]
      have hpred : xs.filter (fun y => !((acc ++ [x]).contains y)) =
          (xs.filter (fun y => !(acc.contains y))).filter (fun y => decide (y ≠ x)) := by
        rw [List.filter_filter]
        apply List.filter_congr
        intro y _
        by_cases hyx : y = x <;> by_cases hya : y ∈ acc <;>
          simp [hyx, hya, List.elem_iff, List.mem_append]
      rw [hpred]
      simp only [firstOccurrences]
      simp only [List.append_assoc, List.singleton_append]

theorem dedupFirst_eq_firstOccurrences (l : List String) :
    dedupFirst l = firstOccurrences l := by
  unfold dedupFirst
  rw [dedupFirstGo_eq]
  simp

/-- Claim C10: for every collection, the asset-id list submitted to its
album (`list(dict.fromkeys(matched_ids))`) has no duplicates and is
exactly the subsequence of first occurrences of the raw matched-id
stream, in input order — also when several catalog files promote to the
same canonical asset id. -/
theorem c10_submitted_ids_nodup_first_order (files : List LrFile)
    (assetIndex : String → List AssetRec) (promote : String → Option String) :
    (submittedIds files assetIndex promote).Nodup ∧
    submittedIds files assetIndex promote =
      firstOccurrences (matchedIdsRaw files assetIndex promote) ∧
    (∀ y, y ∈ submittedIds files assetIndex promote ↔
      y ∈ matchedIdsRaw files assetIndex promote) := by
  unfold submittedIds
  rw [dedupFirst_eq_firstOccurrences]
  exact ⟨fo_nodup _, rfl, fun y => fo_mem_iff _ y⟩

theorem dedup_mem_iff (l : List String) (y : String) :
    y ∈ dedupFirst l ↔ y ∈ l := by
  rw [dedupFirst_eq_firstOccurrences]; exact fo_mem_iff l y

theorem dedupFirst_const (l : List String) (s : String)
    (hne : l ≠ []) (hall : ∀ y ∈ l, y = s) : dedupFirst l = [s] := by
  rw [dedupFirst_eq_firstOccurrences]
  cases l with
  | nil => exact absurd rfl hne
  | cons x xs =>
    have hx : x = s := hall x (List.mem_cons_self x xs)
    subst hx
    have hfil : xs.filter (fun y => decide (y ≠ x)) = [] := by
      rw [List.filter_eq_nil_iff]
      intro a ha
      have : a = x := hall a (List.mem_cons_of_mem x ha)
      simp [this]
    simp only [firstOccurrences, hfil]

/-- Claim C7: for a stem group with at least two members, the stack
planner emits no operation iff exactly one distinct existing stack id is
involved and every member is already a member of it (i.e. the lookup
maps every member to that one stack); otherwise it emits a Create or
Replace operation. -/
theorem c7_skip_iff (a2s : String → Option String) (group : List Member)
    (h2 : 2 ≤ group.length) :
    (planGroup a2s group = .skip ↔ ∃ s, ∀ m ∈ group, a2s m.1 = some s) ∧
    (planGroup a2s group ≠ .skip →
      (∃ p o, planGroup a2s group = .create p o) ∨
      (∃ e p o, planGroup a2s group = .replace e p o)) := by
  constructor
  · have hcond : planGroup a2s group = .skip ↔
        ((dedupFirst (group.filterMap (fun m => a2s m.1))).length = 1 ∧
         (group.map (fun m => m.1)).filter (fun aid => (a2s aid).isNone) = []) := by
      unfold planGroup
      dsimp only
      split_ifs with hc h1
      · exact iff_of_true rfl hc
      · exact iff_of_false id hc
      · exact iff_of_false id hc
    rw [hcond]
    constructor
    · rintro ⟨hlen, hunst⟩
      obtain ⟨s, hs⟩ := List.length_eq_one.mp hlen
      refine ⟨s, ?_⟩
      intro m hm
      have hnotnone : ¬((a2s m.1).isNone = true) := by
        have := List.filter_eq_nil_iff.mp hunst m.1 (List.mem_map_of_mem _ hm)
        simpa using this
      cases hts : a2s m.1 with
      | none => rw [hts] at hnotnone; simp at hnotnone
      | some t =>
        have htL : t ∈ group.filterMap (fun m => a2s m.1) :=
          List.mem_filterMap.mpr ⟨m, hm, hts⟩
        have := (dedup_mem_iff _ t).mpr htL
        rw [hs] at this
        simp at this
        rw [this]
    · rintro ⟨s, hs⟩
      constructor
      · have hne : group.filterMap (fun m => a2s m.1) ≠ [] := by
          cases group with
          | nil => simp at h2
          | cons m0 ms =>
            have := hs m0 (List.mem_cons_self m0 ms)
            simp [List.filterMap_cons, this]
        have hall : ∀ y ∈ group.filterMap (fun m => a2s m.1), y = s := by
          intro y hy
          obtain ⟨m, hm, hmy⟩ := List.mem_filterMap.mp hy
          rw [hs m hm] at hmy
          exact (Option.some_inj.mp hmy).symm
        rw [dedupFirst_const _ s hne hall]
        rfl
      · rw [List.filter_eq_nil_iff]
        intro aid haid
        obtain ⟨m, hm, hmaid⟩ := List.mem_map.mp haid
        rw [← hmaid, hs m hm]
        simp
  · intro hne
    cases hpg : planGroup a2s group with
    | skip => exact absurd hpg hne
    | create p o => exact Or.inl ⟨p, o, rfl⟩
    | replace e p o => exact Or.inr ⟨e, p, o, rfl⟩

theorem insertByPrio_perm (x : Member) (l : List Member) :
    (insertByPrio x l).Perm (x :: l) := by
  induction l with
  | nil => simp [insertByPrio]
  | cons y ys ih =>
    simp only [insertByPrio]
    split_ifs with h
    · exact List.Perm.refl _
    · exact (List.Perm.cons y ih).trans (List.Perm.swap x y ys)

theorem sortByPrio_perm (l : List Member) : (sortByPrio l).Perm l := by
  induction l with
  | nil => simp [sortByPrio]
  | cons x xs ih =>
    simp only [sortByPrio]
    exact (insertByPrio_perm x (sortByPrio xs)).trans (List.Perm.cons x ih)

theorem insertByPrio_sorted (x : Member) (l : List Member)
    (h : l.Pairwise (fun a b => memberPrio a ≤ memberPrio b)) :
    (insertByPrio x l).Pairwise (fun a b => memberPrio a ≤ memberPrio b) := by
  induction l with
  | nil => simp [insertByPrio]
  | cons y ys ih =>
    simp only [insertByPrio]
    split_ifs with hxy
    · refine List.pairwise_cons.mpr ⟨?_, h⟩
      intro b hb
      rcases List.mem_cons.mp hb with rfl | hb'
      · exact hxy
      · exact le_trans hxy ((List.pairwise_cons.mp h).1 b hb')
    · obtain ⟨hy, hys⟩ := List.pairwise_cons.mp h
      refine List.pairwise_cons.mpr ⟨?_, ih hys⟩
      intro b hb
      have hbx : b ∈ x :: ys := (insertByPrio_perm x ys).mem_iff.mp hb
      rcases List.mem_cons.mp hbx with rfl | hb'
      · omega
      · exact hy b hb'

theorem sortByPrio_sorted (l : List Member) :
    (sortByPrio l).Pairwise (fun a b => memberPrio a ≤ memberPrio b) := by
  induction l with
  | nil => simp [sortByPrio]
  | cons x xs ih => exact insertByPrio_sorted x _ ih

/-- Claim C6: a stem group with at least two members, none of which is in
any existing remote stack, yields a single Create whose primary is a
member of minimal format-priority rank and whose member sequence is the
stable priority-ascending ordering of the group (so the remaining
members follow in ascending priority order). -/
theorem c6_unstacked_group_create (a2s : String → Option String) (group : List Member)
    (h2 : 2 ≤ group.length)
    (hun : ∀ m ∈ group, a2s m.1 = none)
    (hnd : (group.map (fun m => m.1)).Nodup) :
    ∃ m rest, sortByPrio group = m :: rest ∧
      planGroup a2s group = .create m.1 (rest.map (fun r => r.1)) ∧
      (m :: rest).Perm group ∧
      List.Pairwise (fun a b => memberPrio a ≤ memberPrio b) (m :: rest) ∧
      (∀ m' ∈ group, memberPrio m ≤ memberPrio m') := by
  have hfm : group.filterMap (fun m => a2s m.1) = [] := by
    rw [List.filterMap_eq_nil_iff]
    exact fun m hm => hun m hm
  have hperm : (sortByPrio group).Perm group := sortByPrio_perm group
  have hsorted := sortByPrio_sorted group
  obtain ⟨m, rest, hsg⟩ : ∃ m rest, sortByPrio group = m :: rest := by
    cases hsgc : sortByPrio group with
    | nil =>
      have := hperm.length_eq
      rw [hsgc] at this
      simp at this
      omega
    | cons m rest => exact ⟨m, rest, rfl⟩
  have hpg : planGroup a2s group = .create m.1 (rest.map (fun r => r.1)) := by
    unfold planGroup
    dsimp only
    rw [hfm]
    have hcond : ¬((dedupFirst []).length = 1 ∧
        (group.map (fun m => m.1)).filter (fun aid => (a2s aid).isNone) = []) := by
      intro hcontra
      have : (dedupFirst []).length = 1 := hcontra.1
      simp [dedupFirst, dedupFirstGo] at this
    rw [if_neg hcond, if_pos (show dedupFirst ([] : List String) = [] from rfl), hsg]
    have hids : (m :: rest).map (fun r => r.1) = m.1 :: rest.map (fun r => r.1) := rfl
    rw [hids]
    have hnd' : (m.1 :: rest.map (fun r => r.1)).Nodup := by
      have : ((m :: rest).map (fun r => r.1)).Perm (group.map (fun r => r.1)) := by
        rw [← hsg]
        exact (sortByPrio_perm group).map _
      exact (this.nodup_iff).mpr hnd
    have hm1 : m.1 ∉ rest.map (fun r => r.1) := (List.nodup_cons.mp hnd').1
    simp only [List.headD_cons, List.filter_cons]
    rw [if_neg (by simp)]
    congr 1
    rw [List.filter_eq_self]
    intro a ha
    simp only [decide_eq_true_eq]
    intro hcontra
    rw [hcontra] at ha
    exact hm1 ha
  refine ⟨m, rest, hsg, hpg, by rw [← hsg]; exact hperm, by rw [← hsg]; exact hsorted, ?_⟩
  intro m' hm'
  have : m' ∈ m :: rest := by
    rw [← hsg]
    exact hperm.mem_iff.mpr hm'
  rcases List.mem_cons.mp this with rfl | hmr
  · exact le_rfl
  · rw [hsg] at hsorted
    exact (List.pairwise_cons.mp hsorted).1 m' hmr

theorem c7_skip_iff_witness :
    (planGroup (fun aid => if aid = "t" ∨ aid = "d" then some "s1" else none)
        [("t", "tif", "A.tif"), ("d", "dng", "A.dng")] = .skip ↔
      ∃ s, ∀ m ∈ ([("t", "tif", "A.tif"), ("d", "dng", "A.dng")] : List Member),
        (if m.1 = "t" ∨ m.1 = "d" then some "s1" else none) = some s) ∧
    (planGroup (fun aid => if aid = "t" ∨ aid = "d" then some "s1" else none)
        [("t", "tif", "A.tif"), ("d", "dng", "A.dng")] ≠ .skip →
      (∃ p o, planGroup (fun aid => if aid = "t" ∨ aid = "d" then some "s1" else none)
          [("t", "tif", "A.tif"), ("d", "dng", "A.dng")] = .create p o) ∨
      (∃ e p o, planGroup (fun aid => if aid = "t" ∨ aid = "d" then some "s1" else none)
          [("t", "tif", "A.tif"), ("d", "dng", "A.dng")] = .replace e p o)) :=
  c7_skip_iff (fun aid => if aid = "t" ∨ aid = "d" then some "s1" else none)
    [("t", "tif", "A.tif"), ("d", "dng", "A.dng")] (by decide)

theorem c6_unstacked_group_create_witness :
    ∃ m rest,
      sortByPrio [("A-tif", "tif", "A.tif"), ("A-dng", "dng", "A.dng"),
          ("A-jpg", "jpg", "A.jpg")] = m :: rest ∧
      planGroup (fun _ => none) [("A-tif", "tif", "A.tif"), ("A-dng", "dng", "A.dng"),
          ("A-jpg", "jpg", "A.jpg")] = .create m.1 (rest.map (fun r => r.1)) ∧
      (m :: rest).Perm [("A-tif", "tif", "A.tif"), ("A-dng", "dng", "A.dng"),
          ("A-jpg", "jpg", "A.jpg")] ∧
      List.Pairwise (fun a b => memberPrio a ≤ memberPrio b) (m :: rest) ∧
      (∀ m' ∈ ([("A-tif", "tif", "A.tif"), ("A-dng", "dng", "A.dng"),
          ("A-jpg", "jpg", "A.jpg")] : List Member), memberPrio m ≤ memberPrio m') :=
  c6_unstacked_group_create (fun _ => none)
    [("A-tif", "tif", "A.tif"), ("A-dng", "dng", "A.dng"), ("A-jpg", "jpg", "A.jpg")]
    (by decide) (fun m _ => rfl) (by decide)

theorem stemBestGo_min (s : String) (l : List AssetRec) :
    ∀ acc r, stemBestGo s l acc = some r →
      (∀ a ∈ l, stemOf a = s → r.2 ≤ prioOf a) ∧ (∀ q, acc = some q → r.2 ≤ q.2) := by
  induction l with
  | nil =>
    intro acc r h
    simp only [stemBestGo] at h
    refine ⟨by simp, ?_⟩
    intro q hq
    rw [h] at hq
    rw [Option.some_inj.mp hq]
  | cons a rest ih =>
    intro acc r h
    simp only [stemBestGo] at h
    by_cases hst : stemOf a = s
    · rw [if_pos hst] at h
      cases acc with
      | none =>
        obtain ⟨hrest, haccb⟩ := ih _ _ h
        refine ⟨?_, by simp⟩
        intro b hb hbs
        rcases List.mem_cons.mp hb with rfl | hb'
        · exact haccb _ rfl
        · exact hrest b hb' hbs
      | some bp =>
        dsimp only at h
        by_cases hlt : prioOf a < bp.2
        · rw [if_pos hlt] at h
          obtain ⟨hrest, haccb⟩ := ih _ _ h
          have hra : r.2 ≤ prioOf a := haccb _ rfl
          refine ⟨?_, ?_⟩
          · intro b hb hbs
            rcases List.mem_cons.mp hb with rfl | hb'
            · exact hra
            · exact hrest b hb' hbs
          · intro q hq
            have hbq : bp = q := Option.some_inj.mp hq
            subst hbq
            omega
        · rw [if_neg hlt] at h
          obtain ⟨hrest, haccb⟩ := ih _ _ h
          have hrbp : r.2 ≤ bp.2 := haccb _ rfl
          refine ⟨?_, ?_⟩
          · intro b hb hbs
            rcases List.mem_cons.mp hb with rfl | hb'
            · omega
            · exact hrest b hb' hbs
          · intro q hq
            rw [← Option.some_inj.mp hq]
            exact hrbp
    · rw [if_neg hst] at h
      obtain ⟨hrest, haccb⟩ := ih _ _ h
      refine ⟨?_, haccb⟩
      intro b hb hbs
      rcases List.mem_cons.mp hb with rfl | hb'
      · exact absurd hbs hst
      · exact hrest b hb' hbs

theorem stemBestGo_first (s : String) (l : List AssetRec) :
    ∀ acc r, stemBestGo s l acc = some r →
      acc = some r ∨
      ∃ l1 a l2, l = l1 ++ a :: l2 ∧ a.id = r.1 ∧ stemOf a = s ∧ prioOf a = r.2 ∧
        (∀ x ∈ l1, stemOf x = s → r.2 < prioOf x) ∧
        (∀ q, acc = some q → r.2 < q.2) := by
  induction l with
  | nil =>
    intro acc r h
    simp only [stemBestGo] at h
    exact Or.inl h
  | cons a rest ih =>
    intro acc r h
    simp only [stemBestGo] at h
    by_cases hst : stemOf a = s
    · rw [if_pos hst] at h
      cases acc with
      | none =>
        rcases ih _ _ h with heq | ⟨l1, b, l2, hsplit, hbid, hbs, hbp, hl1, haccq⟩
        · have hr := Option.some_inj.mp heq
          refine Or.inr ⟨[], a, rest, rfl, ?_, hst, ?_, by simp, by simp⟩
          · rw [← hr]
          · rw [← hr]
        · have hra : r.2 < prioOf a := haccq _ rfl
          refine Or.inr ⟨a :: l1, b, l2, by rw [hsplit]; rfl, hbid, hbs, hbp, ?_, by simp⟩
          intro x hx hxs
          rcases List.mem_cons.mp hx with rfl | hx'
          · exact hra
          · exact hl1 x hx' hxs
      | some bp =>
        dsimp only at h
        by_cases hlt : prioOf a < bp.2
        · rw [if_pos hlt] at h
          rcases ih _ _ h with heq | ⟨l1, b, l2, hsplit, hbid, hbs, hbp, hl1, haccq⟩
          · have hr := Option.some_inj.mp heq
            refine Or.inr ⟨[], a, rest, rfl, ?_, hst, ?_, by simp, ?_⟩
            · rw [← hr]
            · rw [← hr]
            · intro q hq
              rw [← Option.some_inj.mp hq, ← hr]
              exact hlt
          · have hra : r.2 < prioOf a := haccq _ rfl
            refine Or.inr ⟨a :: l1, b, l2, by rw [hsplit]; rfl, hbid, hbs, hbp, ?_, ?_⟩
            · intro x hx hxs
              rcases List.mem_cons.mp hx with rfl | hx'
              · exact hra
              · exact hl1 x hx' hxs
            · intro q hq
              rw [← Option.some_inj.mp hq]
              omega
        · rw [if_neg hlt] at h
          rcases ih _ _ h with heq | ⟨l1, b, l2, hsplit, hbid, hbs, hbp, hl1, haccq⟩
          · exact Or.inl heq
          · have hrbp : r.2 < bp.2 := haccq _ rfl
            refine Or.inr ⟨a :: l1, b, l2, by rw [hsplit]; rfl, hbid, hbs, hbp, ?_, ?_⟩
            · intro x hx hxs
              rcases List.mem_cons.mp hx with rfl | hx'
              · omega
              · exact hl1 x hx' hxs
            · intro q hq
              rw [← Option.some_inj.mp hq]
              exact hrbp
    · rw [if_neg hst] at h
      rcases ih _ _ h with heq | ⟨l1, b, l2, hsplit, hbid, hbs, hbp, hl1, haccq⟩
      · exact Or.inl heq
      · refine Or.inr ⟨a :: l1, b, l2, by rw [hsplit]; rfl, hbid, hbs, hbp, ?_, haccq⟩
        intro x hx hxs
        rcases List.mem_cons.mp hx with rfl | hx'
        · exact absurd hxs hst
        · exact hl1 x hx' hxs

/-- Claim C3: when `stem_best` selects a canonical `(bid, bp)` for a stem,
that priority is minimal over every asset of the stem, and the canonical
is the first asset (in input order) attaining it: it splits the input as
`l1 ++ a :: l2` with every same-stem asset in `l1` of strictly greater
priority. -/
theorem c3_canonical_minimal_first_seen (assets : List AssetRec) (s bid : String) (bp : Nat)
    (h : stem_best assets s = some (bid, bp)) :
    (∀ a ∈ assets, stemOf a = s → bp ≤ prioOf a) ∧
    ∃ l1 a l2, assets = l1 ++ a :: l2 ∧ a.id = bid ∧ stemOf a = s ∧ prioOf a = bp ∧
      ∀ x ∈ l1, stemOf x = s → bp < prioOf x := by
  constructor
  · intro a ha hs
    exact (stemBestGo_min s assets none (bid, bp) h).1 a ha hs
  · rcases stemBestGo_first s assets none (bid, bp) h with h1 | ⟨l1, a, l2, hsp, hid, hs, hp, hl1, _⟩
    · exact absurd h1 (by simp)
    · exact ⟨l1, a, l2, hsp, hid, hs, hp, hl1⟩

theorem c3_canonical_minimal_first_seen_witness :
    (∀ a ∈ [AssetRec.mk "id1" "a.jpg", AssetRec.mk "id2" "A.JPG", AssetRec.mk "id3" "a.tif"],
      stemOf a = "a" → 1 ≤ prioOf a) ∧
    ∃ l1 a l2,
      [AssetRec.mk "id1" "a.jpg", AssetRec.mk "id2" "A.JPG", AssetRec.mk "id3" "a.tif"] =
        l1 ++ a :: l2 ∧
      a.id = "id3" ∧ stemOf a = "a" ∧ prioOf a = 1 ∧
      ∀ x ∈ l1, stemOf x = "a" → 1 < prioOf x :=
  c3_canonical_minimal_first_seen
    [AssetRec.mk "id1" "a.jpg", AssetRec.mk "id2" "A.JPG", AssetRec.mk "id3" "a.tif"]
    "a" "id3" 1 (by decide)

/-- Claim C2: over any asset population with distinct asset ids, the
promotion map has no self-entries (`promote[x] ≠ x`) and no chains: no
mapped value (a canonical id) is itself a key of the map. -/
theorem c2_promotion_no_self_no_chains (assets : List AssetRec)
    (hnd : (assets.map AssetRec.id).Nodup) :
    (∀ p ∈ promoteList assets, p.1 ≠ p.2) ∧
    (∀ p ∈ promoteList assets, ∀ q ∈ promoteList assets, p.2 ≠ q.1) := by
  have hmem : ∀ p ∈ promoteList assets, ∃ a ∈ assets, ∃ bp,
      stem_best assets (stemOf a) = some bp ∧ bp.1 ≠ a.id ∧ p = (a.id, bp.1) := by
    intro p hp
    obtain ⟨a, ha, hfa⟩ := List.mem_filterMap.mp hp
    cases hsb : stem_best assets (stemOf a) with
    | none => rw [hsb] at hfa; simp at hfa
    | some bp =>
      rw [hsb] at hfa
      dsimp only at hfa
      by_cases hne : bp.1 = a.id
      · rw [if_neg (by simp [hne])] at hfa
        exact absurd hfa (by simp)
      · rw [if_pos hne] at hfa
        exact ⟨a, ha, bp, hsb, hne, (Option.some_inj.mp hfa).symm⟩
  constructor
  · intro p hp
    obtain ⟨a, ha, bp, hsb, hne, hpe⟩ := hmem p hp
    rw [hpe]
    intro hcontra
    simp only at hcontra
    exact hne hcontra.symm
  · intro p hp q hq hpq
    obtain ⟨a, ha, bp, hsba, hnea, hpe⟩ := hmem p hp
    obtain ⟨c, hc, bq, hsbc, hnec, hqe⟩ := hmem q hq
    rw [hpe, hqe] at hpq
    dsimp only at hpq
    rcases stemBestGo_first (stemOf a) assets none bp hsba with h1 | ⟨l1, b, l2, hsp, hbid, hbs, _, _, _⟩
    · exact absurd h1 (by simp)
    · have hbmem : b ∈ assets := by
        rw [hsp]
        exact List.mem_append_right _ (List.mem_cons_self _ _)
      have hbc : b = c := List.inj_on_of_nodup_map hnd hbmem hc (by rw [hbid, hpq])
      have hsc : stemOf c = stemOf a := by rw [← hbc, hbs]
      rw [hsc, hsba] at hsbc
      apply hnec
      rw [← Option.some_inj.mp hsbc, hpq]

theorem c2_promotion_no_self_no_chains_witness :
    (∀ p ∈ promoteList [AssetRec.mk "id1" "a.tif", AssetRec.mk "id2" "a.jpg"], p.1 ≠ p.2) ∧
    (∀ p ∈ promoteList [AssetRec.mk "id1" "a.tif", AssetRec.mk "id2" "a.jpg"],
      ∀ q ∈ promoteList [AssetRec.mk "id1" "a.tif", AssetRec.mk "id2" "a.jpg"], p.2 ≠ q.1) :=
  c2_promotion_no_self_no_chains [AssetRec.mk "id1" "a.tif", AssetRec.mk "id2" "a.jpg"]
    (by decide)

theorem char_eq_iff_toNat {a b : Char} : a = b ↔ a.toNat = b.toNat := by
  constructor
  · intro h; rw [h]
  · intro h
    apply Char.ext
    apply UInt32.eq_of_toBitVec_eq
    apply BitVec.eq_of_toNat_eq
    exact h

theorem char_le_iff_toNat {a b : Char} : a ≤ b ↔ a.toNat ≤ b.toNat := by
  rw [Char.le_def]
  exact ⟨fun h => h, fun h => h⟩

theorem toNat_ofNat_valid (n : Nat) (h : n < 55296) : (Char.ofNat n).toNat = n := by
  rw [Char.ofNat, dif_pos (Or.inl (by exact_mod_cast h))]
  simp [Char.ofNatAux, Char.toNat, UInt32.toNat, BitVec.toNat_ofNatLt]

theorem lowerChar_toNat (c : Char) :
    (lowerChar c).toNat = if 65 ≤ c.toNat ∧ c.toNat ≤ 90 then c.toNat + 32 else c.toNat := by
  unfold lowerChar
  by_cases h : 'A' ≤ c ∧ c ≤ 'Z'
  · have h65 : 65 ≤ c.toNat := char_le_iff_toNat.mp h.1
    have h90 : c.toNat ≤ 90 := char_le_iff_toNat.mp h.2
    rw [if_pos h, if_pos ⟨h65, h90⟩]
    exact toNat_ofNat_valid _ (by omega)
  · have : ¬(65 ≤ c.toNat ∧ c.toNat ≤ 90) := by
      intro hc
      exact h ⟨char_le_iff_toNat.mpr hc.1, char_le_iff_toNat.mpr hc.2⟩
    rw [if_neg h, if_neg this]

theorem lowerChar_idem (c : Char) : lowerChar (lowerChar c) = lowerChar c := by
  rw [char_eq_iff_toNat, lowerChar_toNat, lowerChar_toNat c]
  by_cases h : 65 ≤ c.toNat ∧ c.toNat ≤ 90
  · rw [if_pos h, if_neg (by omega)]
  · rw [if_neg h, if_neg h]

/-- `lowerChar` hits a non-letter target only from that character itself. -/
theorem lowerChar_eq_nonletter (c t : Char)
    (ht : ¬(65 ≤ t.toNat ∧ t.toNat ≤ 90) ∧ ¬(97 ≤ t.toNat ∧ t.toNat ≤ 122)) :
    lowerChar c = t ↔ c = t := by
  rw [char_eq_iff_toNat, char_eq_iff_toNat, lowerChar_toNat]
  by_cases h : 65 ≤ c.toNat ∧ c.toNat ≤ 90
  · rw [if_pos h]
    constructor
    · intro he; exact absurd ⟨by omega, by omega⟩ ht.2
    · intro he; exact absurd ⟨by omega, by omega⟩ ht.1
  · rw [if_neg h]

def isTagU (l : List Char) : Bool :=
  match l with
  | c :: _ => decide (c = '_')
  | [] => false

def isTagO (l : List Char) : Bool :=
  match l with
  | c :: t => decide (lowerChar c = 'o') && isTagU t
  | [] => false

def isTagX (l : List Char) : Bool :=
  match l with
  | c :: t => decide (lowerChar c = 'x') && isTagO t
  | [] => false

theorem isDxoTag_decomp (l : List Char) :
    isDxoTag l = (match l with
                  | c :: t => decide (lowerChar c = 'd') && isTagX t
                  | [] => false) := by
  rcases l with _ | ⟨c1, _ | ⟨c2, _ | ⟨c3, _ | ⟨c4, t⟩⟩⟩⟩ <;>
    simp [isDxoTag, isTagX, isTagO, isTagU, Bool.decide_and, Bool.and_assoc]

theorem dropWhile_head_cases (p : Char → Bool) (l : List Char) :
    l.dropWhile p = [] ∨ ∃ c t, l.dropWhile p = c :: t ∧ p c = false := by
  induction l with
  | nil => exact Or.inl rfl
  | cons c cs ih =>
    simp only [List.dropWhile]
    cases hpc : p c with
    | true => simp only [hpc]; exact ih
    | false => simp only [hpc]; exact Or.inr ⟨c, cs, rfl, hpc⟩

theorem dxoSubGo_dash_headed (fuel : Nat) :
    ∀ l : List Char, l.length ≤ fuel → (l = [] ∨ ∃ r, l = '-' :: r) →
      dxoSubGo fuel l = [] ∨ ∃ t, dxoSubGo fuel l = '-' :: t := by
  induction fuel with
  | zero =>
    intro l hl _
    have : l = [] := List.eq_nil_of_length_eq_zero (Nat.le_zero.mp hl)
    subst this
    exact Or.inl rfl
  | succ fuel ih =>
    intro l hl hshape
    rcases hshape with rfl | ⟨r, rfl⟩
    · exact Or.inl rfl
    · simp only [dxoSubGo]
      by_cases hm : isDxoTag r = true
      · rw [if_pos ⟨trivial, hm⟩]
        apply ih
        · have h1 := dropWhile_length_le (fun d => decide (d ≠ '-')) (r.drop 4)
          have h2 : (r.drop 4).length ≤ r.length := by rw [List.length_drop]; omega
          simp only [List.length_cons] at hl
          omega
        · rcases dropWhile_head_cases (fun d => decide (d ≠ '-')) (r.drop 4) with hnil | ⟨c, t, heq, hpc⟩
          · exact Or.inl hnil
          · right
            refine ⟨t, ?_⟩
            have hcd : c = '-' := by simpa using hpc
            rw [heq, hcd]
      · rw [if_neg (fun hc => hm hc.2)]
        exact Or.inr ⟨_, rfl⟩

theorem dropWhile_dash_shape (l : List Char) :
    l.dropWhile (fun d => decide (d ≠ '-')) = [] ∨
    ∃ r, l.dropWhile (fun d => decide (d ≠ '-')) = '-' :: r := by
  rcases dropWhile_head_cases (fun d => decide (d ≠ '-')) l with h | ⟨c, t, heq, hpc⟩
  · exact Or.inl h
  · right
    have hc : c = '-' := by simpa using hpc
    exact ⟨t, by rw [heq, hc]⟩

theorem newlist_length_le (cs : List Char) :
    ((cs.drop 4).dropWhile (fun d => decide (d ≠ '-'))).length ≤ cs.length := by
  have h1 := dropWhile_length_le (fun d => decide (d ≠ '-')) (cs.drop 4)
  have h2 : (cs.drop 4).length ≤ cs.length := by rw [List.length_drop]; omega
  omega

theorem isTagU_dxoSubGo (fuel : Nat) :
    ∀ l : List Char, l.length ≤ fuel → isTagU (dxoSubGo fuel l) = true → isTagU l = true := by
  induction fuel with
  | zero =>
    intro l hl h
    have : l = [] := List.eq_nil_of_length_eq_zero (Nat.le_zero.mp hl)
    subst this
    simp [dxoSubGo, isTagU] at h
  | succ fuel ih =>
    intro l hl h
    cases l with
    | nil => simp [dxoSubGo, isTagU] at h
    | cons c cs =>
      simp only [dxoSubGo] at h
      by_cases hm : c = '-' ∧ isDxoTag cs = true
      · rw [if_pos hm] at h
        exfalso
        have hlen : ((cs.drop 4).dropWhile (fun d => decide (d ≠ '-'))).length ≤ fuel := by
          have := newlist_length_le cs
          simp only [List.length_cons] at hl
          omega
        rcases dxoSubGo_dash_headed fuel _ hlen (dropWhile_dash_shape (cs.drop 4)) with
          hnil | ⟨t, ht⟩
        · rw [hnil] at h; simp [isTagU] at h
        · rw [ht] at h; simp [isTagU] at h
      · rw [if_neg hm] at h
        simp only [isTagU] at h ⊢
        exact h

theorem isTagO_dxoSubGo (fuel : Nat) :
    ∀ l : List Char, l.length ≤ fuel → isTagO (dxoSubGo fuel l) = true → isTagO l = true := by
  induction fuel with
  | zero =>
    intro l hl h
    have : l = [] := List.eq_nil_of_length_eq_zero (Nat.le_zero.mp hl)
    subst this
    simp [dxoSubGo, isTagO] at h
  | succ fuel ih =>
    intro l hl h
    cases l with
    | nil => simp [dxoSubGo, isTagO] at h
    | cons c cs =>
      simp only [dxoSubGo] at h
      by_cases hm : c = '-' ∧ isDxoTag cs = true
      · rw [if_pos hm] at h
        exfalso
        have hlen : ((cs.drop 4).dropWhile (fun d => decide (d ≠ '-'))).length ≤ fuel := by
          have := newlist_length_le cs
          simp only [List.length_cons] at hl
          omega
        rcases dxoSubGo_dash_headed fuel _ hlen (dropWhile_dash_shape (cs.drop 4)) with
          hnil | ⟨t, ht⟩
        · rw [hnil] at h; simp [isTagO] at h
        · rw [ht] at h
          simp only [isTagO, Bool.and_eq_true, decide_eq_true_eq] at h
          have : lowerChar '-' = '-' := rfl
          rw [this] at h
          exact absurd h.1 (by decide)
      · rw [if_neg hm] at h
        simp only [isTagO, Bool.and_eq_true] at h ⊢
        have hcs : cs.length ≤ fuel := by simp only [List.length_cons] at hl; omega
        exact ⟨h.1, isTagU_dxoSubGo fuel cs hcs h.2⟩

theorem isTagX_dxoSubGo (fuel : Nat) :
    ∀ l : List Char, l.length ≤ fuel → isTagX (dxoSubGo fuel l) = true → isTagX l = true := by
  induction fuel with
  | zero =>
    intro l hl h
    have : l = [] := List.eq_nil_of_length_eq_zero (Nat.le_zero.mp hl)
    subst this
    simp [dxoSubGo, isTagX] at h
  | succ fuel ih =>
    intro l hl h
    cases l with
    | nil => simp [dxoSubGo, isTagX] at h
    | cons c cs =>
      simp only [dxoSubGo] at h
      by_cases hm : c = '-' ∧ isDxoTag cs = true
      · rw [if_pos hm] at h
        exfalso
        have hlen : ((cs.drop 4).dropWhile (fun d => decide (d ≠ '-'))).length ≤ fuel := by
          have := newlist_length_le cs
          simp only [List.length_cons] at hl
          omega
        rcases dxoSubGo_dash_headed fuel _ hlen (dropWhile_dash_shape (cs.drop 4)) with
          hnil | ⟨t, ht⟩
        · rw [hnil] at h; simp [isTagX] at h
        · rw [ht] at h
          simp only [isTagX, Bool.and_eq_true, decide_eq_true_eq] at h
          have : lowerChar '-' = '-' := rfl
          rw [this] at h
          exact absurd h.1 (by decide)
      · rw [if_neg hm] at h
        simp only [isTagX, Bool.and_eq_true] at h ⊢
        have hcs : cs.length ≤ fuel := by simp only [List.length_cons] at hl; omega
        exact ⟨h.1, isTagO_dxoSubGo fuel cs hcs h.2⟩

theorem isDxoTag_dxoSubGo (fuel : Nat) :
    ∀ l : List Char, l.length ≤ fuel → isDxoTag (dxoSubGo fuel l) = true → isDxoTag l = true := by
  induction fuel with
  | zero =>
    intro l hl h
    have : l = [] := List.eq_nil_of_length_eq_zero (Nat.le_zero.mp hl)
    subst this
    simp [dxoSubGo, isDxoTag] at h
  | succ fuel ih =>
    intro l hl h
    cases l with
    | nil => simp [dxoSubGo, isDxoTag] at h
    | cons c cs =>
      simp only [dxoSubGo] at h
      by_cases hm : c = '-' ∧ isDxoTag cs = true
      · rw [if_pos hm] at h
        exfalso
        have hlen : ((cs.drop 4).dropWhile (fun d => decide (d ≠ '-'))).length ≤ fuel := by
          have := newlist_length_le cs
          simp only [List.length_cons] at hl
          omega
        rcases dxoSubGo_dash_headed fuel _ hlen (dropWhile_dash_shape (cs.drop 4)) with
          hnil | ⟨t, ht⟩
        · rw [hnil] at h; simp [isDxoTag] at h
        · rw [ht] at h
          rw [isDxoTag_decomp] at h
          simp only [Bool.and_eq_true, decide_eq_true_eq] at h
          have : lowerChar '-' = '-' := rfl
          rw [this] at h
          exact absurd h.1 (by decide)
      · rw [if_neg hm] at h
        rw [isDxoTag_decomp] at h ⊢
        simp only [Bool.and_eq_true] at h ⊢
        have hcs : cs.length ≤ fuel := by simp only [List.length_cons] at hl; omega
        exact ⟨h.1, isTagX_dxoSubGo fuel cs hcs h.2⟩

/-- Whether `l` contains an occurrence of the (case-insensitive) marker
`-DxO_`, i.e. whether `_DXO_SUFFIX` has a match. -/
def hasDxoB (l : List Char) : Bool :=
  match l with
  | [] => false
  | c :: cs => (decide (c = '-') && isDxoTag cs) || hasDxoB cs

theorem hasDxoB_dxoSubGo (fuel : Nat) :
    ∀ l : List Char, l.length ≤ fuel → hasDxoB (dxoSubGo fuel l) = false := by
  induction fuel with
  | zero =>
    intro l hl
    have : l = [] := List.eq_nil_of_length_eq_zero (Nat.le_zero.mp hl)
    subst this
    simp [dxoSubGo, hasDxoB]
  | succ fuel ih =>
    intro l hl
    cases l with
    | nil => simp [dxoSubGo, hasDxoB]
    | cons c cs =>
      have hcs : cs.length ≤ fuel := by simp only [List.length_cons] at hl; omega
      simp only [dxoSubGo]
      by_cases hm : c = '-' ∧ isDxoTag cs = true
      · rw [if_pos hm]
        apply ih
        have := newlist_length_le cs
        omega
      · rw [if_neg hm]
        have hout := ih cs hcs
        simp only [hasDxoB, hout, Bool.or_false, Bool.and_eq_false_iff]
        by_cases hc : c = '-'
        · right
          cases hdt : isDxoTag (dxoSubGo fuel cs) with
          | false => rfl
          | true => exact absurd (isDxoTag_dxoSubGo fuel cs hcs hdt) (fun ht => hm ⟨hc, ht⟩)
        · left
          simpa using hc

theorem dxoSubGo_id (fuel : Nat) :
    ∀ l : List Char, l.length ≤ fuel → hasDxoB l = false → dxoSubGo fuel l = l := by
  induction fuel with
  | zero =>
    intro l hl _
    have : l = [] := List.eq_nil_of_length_eq_zero (Nat.le_zero.mp hl)
    subst this
    rfl
  | succ fuel ih =>
    intro l hl hno
    cases l with
    | nil => rfl
    | cons c cs =>
      have hcs : cs.length ≤ fuel := by simp only [List.length_cons] at hl; omega
      simp only [hasDxoB, Bool.or_eq_false_iff, Bool.and_eq_false_iff] at hno
      simp only [dxoSubGo]
      rw [if_neg ?hneg]
      case hneg =>
        rintro ⟨rfl, ht⟩
        rcases hno.1 with hd | hdt
        · simp at hd
        · rw [ht] at hdt; exact Bool.noConfusion hdt
      rw [ih cs hcs hno.2]

theorem hasDxoB_dxoSub (l : List Char) : hasDxoB (dxoSub l) = false :=
  hasDxoB_dxoSubGo l.length l le_rfl

theorem dxoSub_id (l : List Char) (h : hasDxoB l = false) : dxoSub l = l :=
  dxoSubGo_id l.length l le_rfl h

theorem isTagU_append (p s : List Char) (h : isTagU p = true) : isTagU (p ++ s) = true := by
  cases p with
  | nil => simp [isTagU] at h
  | cons c t => simpa [isTagU] using h

theorem isTagO_append (p s : List Char) (h : isTagO p = true) : isTagO (p ++ s) = true := by
  cases p with
  | nil => simp [isTagO] at h
  | cons c t =>
    simp only [List.cons_append, isTagO, Bool.and_eq_true] at h ⊢
    exact ⟨h.1, isTagU_append t s h.2⟩

theorem isTagX_append (p s : List Char) (h : isTagX p = true) : isTagX (p ++ s) = true := by
  cases p with
  | nil => simp [isTagX] at h
  | cons c t =>
    simp only [List.cons_append, isTagX, Bool.and_eq_true] at h ⊢
    exact ⟨h.1, isTagO_append t s h.2⟩

theorem isDxoTag_append (p s : List Char) (h : isDxoTag p = true) : isDxoTag (p ++ s) = true := by
  cases p with
  | nil => rw [isDxoTag_decomp] at h; simp at h
  | cons c t =>
    rw [isDxoTag_decomp] at h
    rw [List.cons_append, isDxoTag_decomp]
    simp only [Bool.and_eq_true] at h ⊢
    exact ⟨h.1, isTagX_append t s h.2⟩

theorem hasDxoB_append (p s : List Char) (h : hasDxoB p = true) : hasDxoB (p ++ s) = true := by
  induction p with
  | nil => simp [hasDxoB] at h
  | cons c t ih =>
    simp only [hasDxoB, Bool.or_eq_true, Bool.and_eq_true] at h
    simp only [List.cons_append, hasDxoB, Bool.or_eq_true, Bool.and_eq_true]
    rcases h with ⟨hc, ht⟩ | hrest
    · exact Or.inl ⟨hc, isDxoTag_append t s ht⟩
    · exact Or.inr (ih hrest)

theorem vcopySub_prefix (l : List Char) : ∃ s, l = vcopySub l ++ s := by
  unfold vcopySub
  dsimp only
  split_ifs with h
  · refine ⟨(l.reverse.take ((l.reverse.takeWhile isAsciiDigit).length + 1)).reverse, ?_⟩
    rw [← List.reverse_append, List.take_append_drop, List.reverse_reverse]
  · exact ⟨[], by simp⟩

theorem hasDxoB_vcopySub (l : List Char) (h : hasDxoB l = false) :
    hasDxoB (vcopySub l) = false := by
  obtain ⟨s, hs⟩ := vcopySub_prefix l
  cases hv : hasDxoB (vcopySub l) with
  | false => rfl
  | true =>
    rw [hs, hasDxoB_append _ s hv] at h
    exact Bool.noConfusion h

theorem isTagU_lower (l : List Char) : isTagU (List.map lowerChar l) = isTagU l := by
  cases l with
  | nil => rfl
  | cons c t =>
    simp only [List.map_cons, isTagU]
    exact decide_eq_decide.mpr (lowerChar_eq_nonletter c '_' (by decide))

theorem isTagO_lower (l : List Char) : isTagO (List.map lowerChar l) = isTagO l := by
  cases l with
  | nil => rfl
  | cons c t =>
    simp only [List.map_cons, isTagO]
    rw [isTagU_lower, decide_eq_decide.mpr (by rw [lowerChar_idem] :
      lowerChar (lowerChar c) = 'o' ↔ lowerChar c = 'o')]

theorem isTagX_lower (l : List Char) : isTagX (List.map lowerChar l) = isTagX l := by
  cases l with
  | nil => rfl
  | cons c t =>
    simp only [List.map_cons, isTagX]
    rw [isTagO_lower, decide_eq_decide.mpr (by rw [lowerChar_idem] :
      lowerChar (lowerChar c) = 'x' ↔ lowerChar c = 'x')]

theorem isDxoTag_lower (l : List Char) : isDxoTag (List.map lowerChar l) = isDxoTag l := by
  cases l with
  | nil => rfl
  | cons c t =>
    rw [List.map_cons, isDxoTag_decomp, isDxoTag_decomp]
    dsimp only
    rw [isTagX_lower, decide_eq_decide.mpr (by rw [lowerChar_idem] :
      lowerChar (lowerChar c) = 'd' ↔ lowerChar c = 'd')]

theorem hasDxoB_lower (l : List Char) : hasDxoB (List.map lowerChar l) = hasDxoB l := by
  induction l with
  | nil => rfl
  | cons c t ih =>
    simp only [List.map_cons, hasDxoB]
    rw [ih, isDxoTag_lower,
      decide_eq_decide.mpr (lowerChar_eq_nonletter c '-' (by decide))]

theorem mem_dxoSubGo (fuel : Nat) :
    ∀ l : List Char, ∀ c, c ∈ dxoSubGo fuel l → c ∈ l := by
  induction fuel with
  | zero =>
    intro l c h
    cases l with
    | nil => simp [dxoSubGo] at h
    | cons a t => simpa [dxoSubGo] using h
  | succ fuel ih =>
    intro l c h
    cases l with
    | nil => simp [dxoSubGo] at h
    | cons a cs =>
      simp only [dxoSubGo] at h
      by_cases hm : a = '-' ∧ isDxoTag cs = true
      · rw [if_pos hm] at h
        have h1 := ih _ c h
        have h2 : c ∈ cs.drop 4 :=
          ((cs.drop 4).dropWhile_sublist (fun d => decide (d ≠ '-'))).mem h1
        exact List.mem_cons_of_mem a (List.mem_of_mem_drop h2)
      · rw [if_neg hm] at h
        rcases List.mem_cons.mp h with rfl | h'
        · exact List.mem_cons_self _ _
        · exact List.mem_cons_of_mem a (ih _ c h')

theorem mem_vcopySub (l : List Char) (c : Char) (h : c ∈ vcopySub l) : c ∈ l := by
  obtain ⟨s, hs⟩ := vcopySub_prefix l
  rw [hs]
  exact List.mem_append_left s h

theorem no_slash_lastComponent (l : List Char) : ('/' : Char) ∉ lastComponent l := by
  unfold lastComponent
  dsimp only
  split_ifs with h
  · simp
  · intro hmem
    have h1 : ('/' : Char) ∈ _ := List.mem_reverse.mp hmem
    have h2 := List.mem_takeWhile_imp h1
    simp at h2

theorem mem_stripLastSuffix (l : List Char) (c : Char) (h : c ∈ stripLastSuffix l) : c ∈ l := by
  unfold stripLastSuffix at h
  dsimp only at h
  split_ifs at h with hc
  · have h1 := List.mem_reverse.mp h
    exact List.mem_reverse.mp (List.mem_of_mem_drop h1)
  · exact h

theorem no_slash_pathStem (l : List Char) : ('/' : Char) ∉ pathStem l := by
  intro h
  exact no_slash_lastComponent l (mem_stripLastSuffix _ _ h)

theorem takeWhile_eq_self_of (p : Char → Bool) (l : List Char)
    (h : ∀ c ∈ l, p c = true) : l.takeWhile p = l := by
  induction l with
  | nil => rfl
  | cons c cs ih =>
    simp only [List.takeWhile, h c (List.mem_cons_self c cs)]
    rw [ih (fun d hd => h d (List.mem_cons_of_mem c hd))]

theorem dropWhile_eq_self_of (p : Char → Bool) (l : List Char)
    (h : ∀ c ∈ l, p c = false) : l.dropWhile p = l := by
  cases l with
  | nil => rfl
  | cons c cs =>
    simp only [List.dropWhile, h c (List.mem_cons_self c cs)]

theorem lastComponent_id (l : List Char)
    (hs : ∀ c ∈ l, c ≠ '/') (hd : ('.' : Char) ∉ l) : lastComponent l = l := by
  unfold lastComponent
  dsimp only
  have hdw : l.reverse.dropWhile (fun c => decide (c = '/')) = l.reverse := by
    apply dropWhile_eq_self_of
    intro c hc
    simpa using hs c (List.mem_reverse.mp hc)
  rw [hdw, List.reverse_reverse]
  have htw : l.reverse.takeWhile (fun c => decide (c ≠ '/')) = l.reverse := by
    apply takeWhile_eq_self_of
    intro c hc
    simpa using hs c (List.mem_reverse.mp hc)
  rw [htw, List.reverse_reverse]
  rw [if_neg]
  intro hcon
  rcases hcon with h1 | h1 <;> rw [h1] at hd <;> simp at hd

theorem stripLastSuffix_id (l : List Char) (hd : ('.' : Char) ∉ l) :
    stripLastSuffix l = l := by
  unfold stripLastSuffix
  dsimp only
  rw [if_neg]
  intro hcon
  have := hcon.1
  rw [List.elem_iff] at this
  exact hd this

/-- The `-\d+$` virtual-copy condition, as a standalone predicate. -/
def endsDashDigits (l : List Char) : Bool :=
  decide (l.reverse.takeWhile isAsciiDigit ≠ [] ∧
    (l.reverse.drop (l.reverse.takeWhile isAsciiDigit).length).head? = some '-')

theorem vcopySub_id (l : List Char) (h : endsDashDigits l = false) : vcopySub l = l := by
  unfold vcopySub
  dsimp only
  rw [if_neg]
  intro hcon
  rw [endsDashDigits, decide_eq_false_iff_not] at h
  exact h hcon

theorem lowerStr_idem (l : List Char) : lowerStr (lowerStr l) = lowerStr l := by
  unfold lowerStr
  rw [List.map_map]
  apply List.map_congr_left
  intro c _
  exact lowerChar_idem c

theorem mem_dxoSub (l : List Char) (c : Char) (h : c ∈ dxoSub l) : c ∈ l :=
  mem_dxoSubGo l.length l c h

theorem string_mk_data (s : String) : String.mk s.data = s := rfl

set_option maxHeartbeats 1000000 in
theorem normalize_stem_data (x : String) :
    (normalize_stem x).data = lowerStr (vcopySub (dxoSub (pathStem x.data))) := rfl

set_option maxHeartbeats 1000000 in
theorem normalize_stem_unfold (y : String) :
    normalize_stem y = String.mk (lowerStr (vcopySub (dxoSub (pathStem y.data)))) := rfl

theorem hasDxoB_lowerStr (l : List Char) : hasDxoB (lowerStr l) = hasDxoB l :=
  hasDxoB_lower l

set_option maxHeartbeats 1000000 in
/-- Claim C9 counterexample: the claim asserts idempotence for every
filename, but a filename whose stem itself contains a dot is re-split on
the second application (`Path("photo.backup").stem == "photo"`), so
`normalize_stem` is not idempotent on "photo.backup.jpg". -/
theorem c9_not_idempotent_counterexample :
    normalize_stem (normalize_stem "photo.backup.jpg") ≠ normalize_stem "photo.backup.jpg" := by
  decide

/-- Claim C9 (amended): `normalize_stem` is idempotent on every filename
whose normalized stem contains no dot and does not end in a dash
followed by digits; the inner result is always lowercase, slash-free and
free of vendor-suffix markers, so under those two conditions
re-application is the identity. -/
theorem c9_normalize_stem_idempotent_amended (x : String)
    (hdot : ('.' : Char) ∉ (normalize_stem x).data)
    (hdd : endsDashDigits (normalize_stem x).data = false) :
    normalize_stem (normalize_stem x) = normalize_stem x := by
  have hexp := normalize_stem_data x
  have hnoslash : ∀ c ∈ (normalize_stem x).data, c ≠ '/' := by
    rw [hexp]
    intro c hc hcontra
    subst hcontra
    simp only [lowerStr] at hc
    obtain ⟨d, hd, hld⟩ := List.mem_map.mp hc
    have hdslash : d = '/' := (lowerChar_eq_nonletter d '/' (by decide)).mp hld
    subst hdslash
    exact no_slash_pathStem x.data (mem_dxoSub _ _ (mem_vcopySub _ _ hd))
  have hpath : pathStem (normalize_stem x).data = (normalize_stem x).data := by
    unfold pathStem
    rw [lastComponent_id _ hnoslash hdot, stripLastSuffix_id _ hdot]
  have hhas : hasDxoB (normalize_stem x).data = false := by
    rw [hexp, hasDxoB_lowerStr]
    exact hasDxoB_vcopySub _ (hasDxoB_dxoSub _)
  have hdxo : dxoSub (normalize_stem x).data = (normalize_stem x).data :=
    dxoSub_id _ hhas
  have hvc : vcopySub (normalize_stem x).data = (normalize_stem x).data :=
    vcopySub_id _ hdd
  have hlow : lowerStr (normalize_stem x).data = (normalize_stem x).data := by
    rw [hexp]
    exact lowerStr_idem _
  rw [normalize_stem_unfold (normalize_stem x), hpath, hdxo, hvc, hlow, string_mk_data]

set_option maxHeartbeats 1000000 in
theorem c9_normalize_stem_idempotent_amended_witness :
    normalize_stem (normalize_stem "IMG_1234-DxO_DeepPRIME-2.ARW") =
      normalize_stem "IMG_1234-DxO_DeepPRIME-2.ARW" :=
  c9_normalize_stem_idempotent_amended "IMG_1234-DxO_DeepPRIME-2.ARW"
    (by decide) (by decide)
